import Mathlib

/-!
Shallow embedding of the incremental ETL engine of `etl_incremental.py` and of
the one-shot full-rebuild script `src/fix_ETL.py`.

Tabular data is modelled as lists of records; SQL reads become pure functions
over those lists.  The effectful parts of `IncrementalETL.run` (exceptions
raised, or swallowed, at particular call sites) are modelled by explicit fault
flags and a result type that carries the database state as it stands when the
process exits.  Timestamps are abstract ticks (`Nat`); `dateOf` extracts the
calendar day used by the full-rebuild script (1000 ticks per day).  Null
values (pandas `NaN`/`NaT`) in optional columns are modelled with `Option`.
Pandas sorts are modelled as stable sorts and row order inside grouped frames
follows the model's own deterministic grouping order; none of the properties
proved below depends on inter-group order.
-/

/-- One row of the parent status-history table `dm_rn_fechas_folio_padre`
(columns `cliente`, `folio_padre`, `estado_padre`, `fecha_registro`), which is
also the shape of the rows handled by `process_status_changes` and
`detect_suprimidos` for the parent entity type. -/
structure Row where
  cliente : String
  folio : String
  estado : String
  fecha : Nat
  deriving DecidableEq, Repr

/-- The sentinel status `"Folio suprimido"` synthesised for entities that
disappear from a snapshot. -/
def supStatus : String := "Folio suprimido"

/-- Entity key of a parent-history row: the pair (cliente, folio_padre). -/
def rkey (r : Row) : String × String := (r.cliente, r.folio)

/-- All rows of one entity key, in table order (models a pandas group). -/
def rowsOfKey (k : String × String) (l : List Row) : List Row :=
  l.filter fun r => decide (rkey r = k)

/-- The distinct entity keys appearing in a frame. -/
def keysOf (l : List Row) : List (String × String) :=
  (l.map rkey).dedup

/-- Stable insertion of a row into a list sorted by `fecha` (the row goes in
front of rows with an equal `fecha`, preserving original order). -/
def insertRow (r : Row) : List Row → List Row
  | [] => [r]
  | x :: xs => if x.fecha < r.fecha then x :: insertRow r xs else r :: x :: xs

/-- Stable sort by `fecha`, modelling `sort_values(by=[..., "fecha_registro"])`
within one entity-key group. -/
def sortFecha : List Row → List Row
  | [] => []
  | r :: rs => insertRow r (sortFecha rs)

/-- Minimum `fecha_registro` of a frame (`df["fecha_registro"].min()`); `0` on
an empty frame (the callers below guard against that case as the code does). -/
def minFecha : List Row → Nat
  | [] => 0
  | [r] => r.fecha
  | r :: rs => min r.fecha (minFecha rs)

/-- Maximum `fecha_registro` of a frame (`df["fecha_registro"].max()`). -/
def maxFecha : List Row → Nat
  | [] => 0
  | [r] => r.fecha
  | r :: rs => max r.fecha (maxFecha rs)

/-- The shift-and-compare scan of `process_status_changes`: walk one sorted
entity-key group and keep each row whose status differs from its immediate
predecessor's status; an absent predecessor (`shift()` giving `NaN`) always
counts as a change. -/
def changesInSeq : Option String → List Row → List Row
  | _, [] => []
  | prev, r :: rs =>
    if prev = some r.estado then changesInSeq (some r.estado) rs
    else r :: changesInSeq (some r.estado) rs

/-- `IncrementalETL.process_status_changes` (etl_incremental.py:123-170):
concatenate the previous DB state with the new batch, sort each entity-key
group by `fecha_registro` (DB rows first, being concatenated first), keep rows
whose status differs from their predecessor's, and finally retain only rows
with `fecha_registro >= df_new["fecha_registro"].min()`.  On an empty new
batch the min is `NaN` and the final comparison keeps nothing. -/
def processStatusChanges (dbState newRows : List Row) : List Row :=
  if newRows.isEmpty then []
  else
    ((keysOf (dbState ++ newRows)).flatMap fun k =>
        changesInSeq none (sortFecha (rowsOfKey k (dbState ++ newRows)))).filter
      fun r => decide (minFecha newRows ≤ r.fecha)

/-- Modelled from the spec's emission rule (section 4.3 / claim C1), for
comparison with `processStatusChanges`: a row is emitted iff its status
differs from its immediate predecessor's in the (entity key, timestamp)-sorted
sequence, and only rows of the new batch are persisted. -/
def specStatusChanges (dbState newRows : List Row) : List Row :=
  ((keysOf (dbState ++ newRows)).flatMap fun k =>
      changesInSeq none (sortFecha (rowsOfKey k (dbState ++ newRows)))).filter
    fun r => decide (r ∈ newRows)

/-- Last row of a list by `fecha` (later table position wins ties), modelling
`DISTINCT ON (key) ... ORDER BY key, fecha_registro DESC` as well as
`sort_values("fecha_registro").groupby(key).last()`. -/
def pickLast : List Row → Option Row
  | [] => none
  | r :: rs =>
    match pickLast rs with
    | none => some r
    | some m => some (if r.fecha ≤ m.fecha then m else r)

/-- First row of a list by `fecha` (earlier table position wins ties),
modelling `sort_values("fecha_registro").groupby(key).first()`. -/
def pickFirst : List Row → Option Row
  | [] => none
  | r :: rs =>
    match pickFirst rs with
    | none => some r
    | some m => some (if m.fecha < r.fecha then m else r)

/-- Latest row of one entity key in a history table. -/
def lastOfKey (k : String × String) (h : List Row) : Option Row :=
  pickLast (rowsOfKey k h)

/-- `IncrementalETL.get_latest_state_from_db`'s successful result
(etl_incremental.py:95-121): one row per entity key, the one with the maximal
`fecha_registro`. -/
def lastStates (h : List Row) : List Row :=
  (keysOf h).filterMap fun k => lastOfKey k h

/-- `IncrementalETL.detect_suprimidos` (etl_incremental.py:172-225) on an
existing history table: take the last known state per key, return nothing if
the table is empty, keep the keys whose last status is not the sentinel,
single out those absent from the current snapshot slice, and synthesise for
each a sentinel row timestamped at the slice's maximal `fecha_registro`. -/
def detectSuprimidosL (snapshot hist : List Row) : List Row :=
  let st := lastStates hist
  if st.isEmpty then []
  else
    let active := st.filter fun r => !(decide (r.estado = supStatus))
    let missing := active.filter fun r => !(snapshot.any fun s => decide (rkey s = rkey r))
    if missing.isEmpty then []
    else missing.map fun r => { r with estado := supStatus, fecha := maxFecha snapshot }

/-- The parent-history portion of one incremental run (etl_incremental.py:
483-501): compute the status changes of the batch against the persisted last
states, detect suppressed entities against the batch's final snapshot slice
(reading the history table before anything is appended), and append the
concatenation to the history when it is non-empty. -/
def runPadreHistory (hist batch : List Row) : List Row :=
  let changes := processStatusChanges (lastStates hist) batch
  let slice := batch.filter fun b => decide (b.fecha = maxFecha batch)
  let sup := detectSuprimidosL slice hist
  let newRows := changes ++ sup
  if newRows.isEmpty then hist else hist ++ newRows

/-- The sentinel invariant of the spec (sections 3 and 8): per entity key the
sentinel status occurs at most once, and strictly later than every
non-sentinel record of that key. -/
def SentinelInv (h : List Row) : Prop :=
  ∀ k : String × String,
    (rowsOfKey k h).countP (fun r => decide (r.estado = supStatus)) ≤ 1 ∧
    ∀ r ∈ rowsOfKey k h, r.estado = supStatus →
      ∀ x ∈ rowsOfKey k h, x.estado ≠ supStatus → x.fecha < r.fecha

/-- Side conditions under which a sequence of incremental runs is performed:
each batch is non-empty, lies strictly beyond the watermark of the history
accumulated so far, carries no sentinel status of its own, and contains no
entity key that already has a sentinel record (no reappearance after
suppression). -/
def goodRuns : List Row → List (List Row) → Bool
  | _, [] => true
  | h, b :: bs =>
    !b.isEmpty &&
    h.all (fun r => b.all fun x => decide (r.fecha < x.fecha)) &&
    b.all (fun x => !(decide (x.estado = supStatus))) &&
    b.all (fun x => h.all fun r => !(decide (rkey r = rkey x)) || !(decide (r.estado = supStatus))) &&
    goodRuns (runPadreHistory h b) bs

/-- One row of the raw snapshot table `rn_registro_casos_transi`.  An absent
child id (empty cell) is modelled by `""`; a null assignment date (`NaT` after
`pd.to_datetime`) by `none`. -/
structure RawRow where
  cliente : String
  folio_padre : String
  folio_hijo : String
  estado_padre : String
  estado_hijo : String
  fecha_registro : Nat
  fecha_asignacion : Option Nat
  rut_paciente : String
  nombre_paciente : String
  intervencion_sanitaria : String
  url_ficha : String
  ppa_grd : String
  monto_total : Int
  deriving DecidableEq, Repr

/-- One row of the detail table `rn_detalle_casos_info_general`. -/
structure InfoRow where
  url_ficha : String
  fecha_atencion : Nat
  intervencion_sanitaria_ingreso : String
  problema_salud : String
  deriving DecidableEq, Repr

/-- One row of the detail table `rn_detalle_casos_prestaciones`. -/
structure PrestRow where
  cliente : String
  folio : String
  descripcion : String
  estado : String
  deriving DecidableEq, Repr

/-- One row of the child status-history table `dm_rn_fechas_folio_hijo`
(the column set selected by `hijo_cols` in `run`). -/
structure HijoRow where
  cliente : String
  folio_padre : String
  folio_hijo : String
  ppa_grd : String
  estado_padre : String
  estado_hijo : String
  fecha : Nat
  deriving DecidableEq, Repr

/-- The four-column frame produced by `detect_suprimidos` for the child entity
type (`group_cols + [state_col]` plus the overwritten `fecha_registro`). -/
structure SupHijo where
  cliente : String
  folio_hijo : String
  estado_hijo : String
  fecha : Nat
  deriving DecidableEq, Repr

/-- One row of the parent dimension table `dm_rn_folio_padre`. -/
structure DimPadreRow where
  cliente : String
  folio_padre : String
  fecha_asignacion : Option Nat
  rut_paciente : String
  nombre_paciente : String
  intervencion_sanitaria : String
  url_ficha : String
  tipo_seguimiento : String
  fecha_asignacion_aceptada : Option Nat
  fecha_atencion : Option Nat
  intervencion_sanitaria_ingreso : Option String
  problema_salud : Option String
  ultimo_estado_folio_padre : Option String
  fecha_ultimo_estado_folio_padre : Option Nat
  deriving DecidableEq, Repr

/-- One row of the child dimension table `dm_rn_folio_hijo`. -/
structure DimHijoRow where
  cliente : String
  folio_padre : String
  folio_hijo : String
  intervencion_sanitaria : String
  ppa_grd : String
  monto_total : Int
  url_ficha : String
  descripcion : Option String
  estado_prestacion : Option String
  tipo_seguimiento : Option String
  ultimo_estado_folio_hijo : Option String
  fecha_ultimo_estado_folio_hijo : Option Nat
  primer_estado_folio_hijo : Option String
  fecha_primer_estado_folio_hijo : Option Nat
  grd : Option String
  deriving DecidableEq, Repr

/-- Projection of a raw row onto the parent columns
`["cliente", "folio_padre", "fecha_registro", "estado_padre"]`. -/
def padreView (r : RawRow) : Row :=
  ⟨r.cliente, r.folio_padre, r.estado_padre, r.fecha_registro⟩

/-- Projection of a raw row onto `hijo_cols`. -/
def hijoView (r : RawRow) : HijoRow :=
  ⟨r.cliente, r.folio_padre, r.folio_hijo, r.ppa_grd, r.estado_padre, r.estado_hijo,
    r.fecha_registro⟩

/-- Minimum `fecha_registro` over raw rows. -/
def minFechaRaw : List RawRow → Nat
  | [] => 0
  | [r] => r.fecha_registro
  | r :: rs => min r.fecha_registro (minFechaRaw rs)

/-- Maximum `fecha_registro` over raw rows. -/
def maxFechaRaw : List RawRow → Nat
  | [] => 0
  | [r] => r.fecha_registro
  | r :: rs => max r.fecha_registro (maxFechaRaw rs)

/-- Last raw row by `fecha_registro`, later table position winning ties
(models `DISTINCT ON ... ORDER BY ..., fecha_registro DESC`). -/
def pickLastRaw : List RawRow → Option RawRow
  | [] => none
  | r :: rs =>
    match pickLastRaw rs with
    | none => some r
    | some m => some (if r.fecha_registro ≤ m.fecha_registro then m else r)

/-- Prefix test on character lists (helper for substring containment). -/
def charsStartWith : List Char → List Char → Bool
  | _, [] => true
  | [], _ :: _ => false
  | a :: as, b :: bs => decide (a = b) && charsStartWith as bs

/-- Substring containment on character lists. -/
def charsHaveSub : List Char → List Char → Bool
  | [], sub => sub.isEmpty
  | a :: as, sub => charsStartWith (a :: as) sub || charsHaveSub as sub

/-- `s.str.contains(sub)` on plain strings. -/
def strHasSub (s sub : String) : Bool :=
  charsHaveSub s.toList sub.toList

/-- The latest static-attribute row per (cliente, folio_padre) among the raw
rows of the given folios (the `DISTINCT ON` query of
`update_dimensions_padre`, etl_incremental.py:256-263). -/
structure StaticPadre where
  cliente : String
  folio_padre : String
  fecha_asignacion : Option Nat
  rut_paciente : String
  nombre_paciente : String
  intervencion_sanitaria : String
  url_ficha : String
  deriving DecidableEq, Repr

/-- Compute the latest static rows (see `StaticPadre`). -/
def latestStaticPadre (raw : List RawRow) (folios : List String) : List StaticPadre :=
  let sel := raw.filter fun r => folios.contains r.folio_padre
  ((sel.map fun r => (r.cliente, r.folio_padre)).dedup).filterMap fun k =>
    (pickLastRaw (sel.filter fun r => decide ((r.cliente, r.folio_padre) = k))).map fun r =>
      ⟨r.cliente, r.folio_padre, r.fecha_asignacion, r.rut_paciente, r.nombre_paciente,
        r.intervencion_sanitaria, r.url_ficha⟩

/-- `get_static_client_start_dates` (etl_incremental.py:227-232): the first
`fecha_registro` per client over the whole raw store. -/
def clientFirstDates (raw : List RawRow) : List (String × Nat) :=
  ((raw.map fun r => r.cliente).dedup).filterMap fun c =>
    match raw.filter fun r => decide (r.cliente = c) with
    | [] => none
    | l => some (c, minFechaRaw l)

/-- Left-join lookup of a client's first registration date. -/
def lookupStart (starts : List (String × Nat)) (c : String) : Option Nat :=
  (starts.find? fun p => decide (p.1 = c)).map fun p => p.2

/-- The "current" filter of `update_dimensions_padre` (etl_incremental.py:281)
and `fix_ETL.py:91`: `fecha_asignacion >= fecha_primer_registro`.  A null on
either side compares false, exactly as `NaT` does in pandas. -/
def isCurrentDate (asig primer : Option Nat) : Bool :=
  match asig, primer with
  | some a, some p => decide (p ≤ a)
  | _, _ => false

/-- The "legacy" filter (etl_incremental.py:282, fix_ETL.py:103):
`fecha_asignacion < fecha_primer_registro`, nulls comparing false. -/
def isLegacyDate (asig primer : Option Nat) : Bool :=
  match asig, primer with
  | some a, some p => decide (a < p)
  | _, _ => false

/-- The statuses excluded when computing the accepted date of a "current"
parent (etl_incremental.py:289). -/
def nonAcceptedStates : List String :=
  ["Asignado", "Folio suprimido", "SIN Prestador", "Rechazo paciente sin consulta",
    "No acepta tratamiento"]

/-- `drop_duplicates(subset=["url_ficha"], keep="last")` on the info-general
detail frame. -/
def dedupInfoKeepLast : List InfoRow → List InfoRow
  | [] => []
  | i :: is =>
    if is.any fun j => decide (j.url_ficha = i.url_ficha) then dedupInfoKeepLast is
    else i :: dedupInfoKeepLast is

/-- The delete-then-insert replacement of parent dimension rows
(etl_incremental.py:349-364).  The delete runs in its own transaction inside a
`try/except` that only logs, so a failed delete still lets the insert proceed;
the insert (`to_sql`) is outside that `try` and raises on failure, after the
delete has already been committed. -/
def upsertDimPadre (deleteFails insertFails : Bool) (dim : List DimPadreRow)
    (folios : List String) (newRows : List DimPadreRow) : List DimPadreRow :=
  let afterDelete := if deleteFails then dim else dim.filter fun r => !(folios.contains r.folio_padre)
  if insertFails then afterDelete else afterDelete ++ newRows

/-- The delete-then-insert replacement of child dimension rows
(etl_incremental.py:451-460): delete and insert share one `try/except`, so a
failed delete skips the insert, while a failed insert still leaves the
committed delete in place. -/
def upsertDimHijo (deleteFails insertFails : Bool) (dim : List DimHijoRow)
    (folioHijos : List String) (newRows : List DimHijoRow) : List DimHijoRow :=
  if deleteFails then dim
  else
    let afterDelete := dim.filter fun r => !(folioHijos.contains r.folio_hijo)
    if insertFails then afterDelete else afterDelete ++ newRows

/-- Acceptance date of a "current" parent (etl_incremental.py:289-297): the
`fecha_registro` of the earliest transition outside `nonAcceptedStates`, or
null when that frame is empty or misses the key. -/
def padreAccCurrent (validStates : List Row) (s : StaticPadre) : Option Nat :=
  if validStates.isEmpty then none
  else (pickFirst (rowsOfKey (s.cliente, s.folio_padre) validStates)).map fun r => r.fecha

/-- Acceptance date of a "legacy" parent (etl_incremental.py:300-316): the
first non-"Asignado" transition when the folio ever had an explicit
"Asignado" record, otherwise the static assignment date. -/
def padreAccLegacy (histLeg : List Row) (hasAsignado : List String) (s : StaticPadre) :
    Option Nat :=
  let fr : Option Nat :=
    if histLeg.isEmpty then none
    else (pickFirst (rowsOfKey (s.cliente, s.folio_padre)
        (histLeg.filter fun r => !(decide (r.estado = "Asignado"))))).map fun r => r.fecha
  if hasAsignado.contains s.folio_padre then fr else s.fecha_asignacion

/-- The current/legacy partition of `update_dimensions_padre`
(etl_incremental.py:275-282): merge the client start dates and filter with
`isCurrentDate` and `isLegacyDate`. -/
def padreCurrentLegacy (raw : List RawRow) (dfStatic : List StaticPadre) :
    List (StaticPadre × Option Nat) × List (StaticPadre × Option Nat) :=
  let starts := clientFirstDates raw
  let dfProc := dfStatic.map fun s => (s, lookupStart starts s.cliente)
  (dfProc.filter fun p => isCurrentDate p.1.fecha_asignacion p.2,
    dfProc.filter fun p => isLegacyDate p.1.fecha_asignacion p.2)

/-- Steps 3 of `update_dimensions_padre`: each surviving static row paired
with its tracking classification and acceptance date.  Rows whose dates make
both filters false (for instance a null assignment date) appear in neither
half and are dropped here, exactly as in the code. -/
def padreFinalTriples (raw : List RawRow) (dfHistory : List Row)
    (dfStatic : List StaticPadre) : List (StaticPadre × String × Option Nat) :=
  let parts := padreCurrentLegacy raw dfStatic
  let dfCurrent := parts.1
  let dfLegacy := parts.2
  let currFolios := dfCurrent.map fun p => p.1.folio_padre
  let histCurr := dfHistory.filter fun r => currFolios.contains r.folio
  let validStates := histCurr.filter fun r => !(nonAcceptedStates.contains r.estado)
  let legFolios := dfLegacy.map fun p => p.1.folio_padre
  let histLeg := dfHistory.filter fun r => legFolios.contains r.folio
  let hasAsignado := (histLeg.filter fun r => decide (r.estado = "Asignado")).map fun r => r.folio
  dfCurrent.map (fun p => (p.1, "current", padreAccCurrent validStates p.1)) ++
    dfLegacy.map fun p => (p.1, "legacy", padreAccLegacy histLeg hasAsignado p.1)

/-- Assembly of one parent dimension row (steps 4-5 of
`update_dimensions_padre`): left-join the info-general details by url and the
latest history state by key. -/
def mkDimPadreRow (details : List InfoRow) (dfHistory : List Row)
    (t : StaticPadre × String × Option Nat) : DimPadreRow :=
  let s := t.1
  let det := details.find? fun i => decide (i.url_ficha = s.url_ficha)
  let lst := pickLast (rowsOfKey (s.cliente, s.folio_padre) dfHistory)
  ⟨s.cliente, s.folio_padre, s.fecha_asignacion, s.rut_paciente, s.nombre_paciente,
    s.intervencion_sanitaria, s.url_ficha, t.2.1, t.2.2,
    det.map fun i => i.fecha_atencion, det.map fun i => i.intervencion_sanitaria_ingreso,
    det.map fun i => i.problema_salud, lst.map fun r => r.estado, lst.map fun r => r.fecha⟩

/-- `IncrementalETL.update_dimensions_padre` (etl_incremental.py:234-364) with
all reads succeeding: rebuild the parent dimension rows of the affected
folios from their history, latest static attributes, client start dates and
the info-general details, then replace them in the dimension table. -/
def updateDimensionsPadre (raw : List RawRow) (infoGeneral : List InfoRow)
    (histPadre : List Row) (dimPadre : List DimPadreRow) (folios : List String) :
    List DimPadreRow :=
  if folios.isEmpty then dimPadre
  else
    let dfHistory := histPadre.filter fun r => folios.contains r.folio
    if dfHistory.isEmpty then dimPadre
    else
      let dfStatic0 := latestStaticPadre raw folios
      if dfStatic0.isEmpty then dimPadre
      else
        let dfStatic := dfStatic0.filter fun s => !(strHasSub s.url_ficha "codificado")
        let dfFinal := padreFinalTriples raw dfHistory dfStatic
        if dfFinal.isEmpty then dimPadre
        else
          let urls := dfFinal.map fun t => t.1.url_ficha
          let details := dedupInfoKeepLast (infoGeneral.filter fun i => urls.contains i.url_ficha)
          upsertDimPadre false false dimPadre folios (dfFinal.map (mkDimPadreRow details dfHistory))

/-- Key of a child-history row: (cliente, folio_hijo). -/
def hkey (r : HijoRow) : String × String := (r.cliente, r.folio_hijo)

/-- Last child-history row by `fecha`, later table position winning ties. -/
def pickLastH : List HijoRow → Option HijoRow
  | [] => none
  | r :: rs =>
    match pickLastH rs with
    | none => some r
    | some m => some (if r.fecha ≤ m.fecha then m else r)

/-- First child-history row by `fecha`, earlier table position winning ties. -/
def pickFirstH : List HijoRow → Option HijoRow
  | [] => none
  | r :: rs =>
    match pickFirstH rs with
    | none => some r
    | some m => some (if m.fecha < r.fecha then m else r)

/-- Latest known state per (cliente, folio_hijo) in the child history table. -/
def lastStatesH (h : List HijoRow) : List HijoRow :=
  ((h.map hkey).dedup).filterMap fun k => pickLastH (h.filter fun r => decide (hkey r = k))

/-- Stable insertion by `fecha` for child-history rows. -/
def insertRowH (r : HijoRow) : List HijoRow → List HijoRow
  | [] => [r]
  | x :: xs => if x.fecha < r.fecha then x :: insertRowH r xs else r :: x :: xs

/-- Stable sort by `fecha` for child-history rows. -/
def sortFechaH : List HijoRow → List HijoRow
  | [] => []
  | r :: rs => insertRowH r (sortFechaH rs)

/-- Minimum `fecha` over child-history rows. -/
def minFechaH : List HijoRow → Nat
  | [] => 0
  | [r] => r.fecha
  | r :: rs => min r.fecha (minFechaH rs)

/-- The shift-and-compare scan for the child entity type. -/
def changesInSeqH : Option String → List HijoRow → List HijoRow
  | _, [] => []
  | prev, r :: rs =>
    if prev = some r.estado_hijo then changesInSeqH (some r.estado_hijo) rs
    else r :: changesInSeqH (some r.estado_hijo) rs

/-- `process_status_changes` applied with `group_cols = [cliente, folio_hijo]`
and `state_col = estado_hijo`. -/
def processStatusChangesH (dbState newRows : List HijoRow) : List HijoRow :=
  if newRows.isEmpty then []
  else
    (((dbState ++ newRows).map hkey).dedup.flatMap fun k =>
        changesInSeqH none (sortFechaH ((dbState ++ newRows).filter fun r =>
          decide (hkey r = k)))).filter
      fun r => decide (minFechaH newRows ≤ r.fecha)

/-- `detect_suprimidos` for the child entity type: the output frame carries
only `cliente`, `folio_hijo`, `estado_hijo` and the overwritten
`fecha_registro`. -/
def detectSuprimidosHijo (snapshot : List RawRow) (hist : List HijoRow) : List SupHijo :=
  let st := lastStatesH hist
  if st.isEmpty then []
  else
    let active := st.filter fun r => !(decide (r.estado_hijo = supStatus))
    let missing := active.filter fun r =>
      !(snapshot.any fun s => decide ((s.cliente, s.folio_hijo) = hkey r))
    if missing.isEmpty then []
    else missing.map fun r => ⟨r.cliente, r.folio_hijo, supStatus, maxFechaRaw snapshot⟩

/-- The merge at etl_incremental.py:533-538 restoring `folio_padre`,
`ppa_grd` and `estado_padre` on a synthesised child suppression row from the
full latest-state frame.  A join miss would give nulls (modelled by empty
strings); in `run` the key always matches because the suppressed keys come
from the very same latest-state query. -/
def mergeSupHijo (s : SupHijo) (fullState : List HijoRow) : HijoRow :=
  match fullState.find? fun t => decide (t.cliente = s.cliente ∧ t.folio_hijo = s.folio_hijo) with
  | some t => ⟨s.cliente, t.folio_padre, s.folio_hijo, t.ppa_grd, t.estado_padre,
      s.estado_hijo, s.fecha⟩
  | none => ⟨s.cliente, "", s.folio_hijo, "", "", s.estado_hijo, s.fecha⟩

/-- Splitting a character list on every `':'`, modelling
`Series.str.split(":")`. -/
def splitColon : List Char → List (List Char)
  | [] => [[]]
  | c :: cs =>
    match splitColon cs with
    | [] => [[]]
    | g :: gs => if c = ':' then [] :: g :: gs else (c :: g) :: gs

/-- Whitespace trimming on a character list (`Series.str.strip()`). -/
def trimChars (l : List Char) : List Char :=
  ((l.dropWhile Char.isWhitespace).reverse.dropWhile Char.isWhitespace).reverse

/-- Python `str.zfill`: left-pad with zeros to the given width, keeping a
leading sign in front of the padding. -/
def zfillChars (w : Nat) (l : List Char) : List Char :=
  if w ≤ l.length then l
  else
    match l with
    | '+' :: rest => '+' :: (List.replicate (w - l.length) '0' ++ rest)
    | '-' :: rest => '-' :: (List.replicate (w - l.length) '0' ++ rest)
    | _ => List.replicate (w - l.length) '0' ++ l

/-- The `grd` derivation (etl_incremental.py:447-449, fix_ETL.py:164):
`np.where(ppa_grd == "GRD", descripcion.str.split(":").str[1].str.strip().str.zfill(6), None)`.
A null description, or a description without a colon, yields null. -/
def formatGrd (ppaGrd : String) (descripcion : Option String) : Option String :=
  if ppaGrd = "GRD" then
    descripcion.bind fun d =>
      ((splitColon d.toList).get? 1).map fun seg => String.mk (zfillChars 6 (trimChars seg))
  else none

/-- Everything after the first `':'` of a character list, `none` when there is
no colon. -/
def afterFirstColon (l : List Char) : Option (List Char) :=
  match l.dropWhile fun c => !(decide (c = ':')) with
  | [] => none
  | _ :: rest => some rest

/-- Modelled from the spec's wording for the `grd` field (claim C9), for
comparison with `formatGrd`: split the description on its FIRST colon and
take everything after it, then trim and left-pad to width 6. -/
def formatGrdSpec (ppaGrd : String) (descripcion : Option String) : Option String :=
  if ppaGrd = "GRD" then
    descripcion.bind fun d =>
      (afterFirstColon d.toList).map fun seg => String.mk (zfillChars 6 (trimChars seg))
  else none

/-- `drop_duplicates(subset=["folio"], keep="last")` on the prestaciones
detail frame (the subset ignores `cliente`, as in the code). -/
def dedupPrestKeepLast : List PrestRow → List PrestRow
  | [] => []
  | p :: ps =>
    if ps.any fun q => decide (q.folio = p.folio) then dedupPrestKeepLast ps
    else p :: dedupPrestKeepLast ps

/-- The latest base row per (cliente, folio_padre, folio_hijo) among raw rows
of the given child folios (the `DISTINCT ON` query of
`update_dimensions_hijo`, etl_incremental.py:385-392). -/
def latestBaseHijo (raw : List RawRow) (folioHijos : List String) : List RawRow :=
  let sel := raw.filter fun r => folioHijos.contains r.folio_hijo
  ((sel.map fun r => (r.cliente, r.folio_padre, r.folio_hijo)).dedup).filterMap fun k =>
    pickLastRaw (sel.filter fun r => decide ((r.cliente, r.folio_padre, r.folio_hijo) = k))

/-- Assembly of one child dimension row (steps 2-5 of
`update_dimensions_hijo`): left-join the prestaciones details (only when that
frame is non-empty, since otherwise the merge never happens and the
`descripcion` column is absent), the parent classification and the first/last
history states, then derive `grd`. -/
def mkDimHijoRow (hasDescr : Bool) (prestD : List PrestRow) (padreInfo : List DimPadreRow)
    (histSel : List HijoRow) (b : RawRow) : DimHijoRow :=
  let pr := if hasDescr then
      prestD.find? fun p => decide (p.cliente = b.cliente ∧ p.folio = b.folio_hijo)
    else none
  let tp := (padreInfo.find? fun d =>
    decide (d.cliente = b.cliente ∧ d.folio_padre = b.folio_padre)).map
      fun d => d.tipo_seguimiento
  let grp := histSel.filter fun r =>
    decide (r.cliente = b.cliente ∧ r.folio_padre = b.folio_padre ∧
      r.folio_hijo = b.folio_hijo)
  let lst := pickLastH grp
  let fst := pickFirstH grp
  let descr := pr.map fun p => p.descripcion
  ⟨b.cliente, b.folio_padre, b.folio_hijo, b.intervencion_sanitaria, b.ppa_grd,
    b.monto_total, b.url_ficha, descr, pr.map fun p => p.estado, tp,
    lst.map fun r => r.estado_hijo, lst.map fun r => r.fecha,
    fst.map fun r => r.estado_hijo, fst.map fun r => r.fecha,
    if hasDescr then formatGrd b.ppa_grd descr else none⟩

/-- `IncrementalETL.update_dimensions_hijo` (etl_incremental.py:366-460) with
all reads succeeding: rebuild the child dimension rows for the affected
(cliente, folio_padre, folio_hijo) keys and replace them. -/
def updateDimensionsHijo (raw : List RawRow) (prestaciones : List PrestRow)
    (dimPadre : List DimPadreRow) (histHijo : List HijoRow) (dimHijo : List DimHijoRow)
    (keys : List (String × String × String)) : List DimHijoRow :=
  if keys.isEmpty then dimHijo
  else
    let keysU := keys.dedup
    let folioHijos := keysU.map fun k => k.2.2
    let prestSel := prestaciones.filter fun p => folioHijos.contains p.folio
    let folioPadres := (keysU.map fun k => k.2.1).dedup
    let padreInfo := dimPadre.filter fun d => folioPadres.contains d.folio_padre
    let histSel := histHijo.filter fun r => folioHijos.contains r.folio_hijo
    upsertDimHijo false false dimHijo folioHijos
      ((latestBaseHijo raw folioHijos).map
        (mkDimHijoRow (!prestSel.isEmpty) (dedupPrestKeepLast prestSel) padreInfo histSel))

/-- The database state visible to one run: the raw snapshot store, the two
detail tables, the two history tables and the two dimension tables. -/
structure DB where
  raw : List RawRow
  infoGeneral : List InfoRow
  prestaciones : List PrestRow
  histPadre : List Row
  histHijo : List HijoRow
  dimPadre : List DimPadreRow
  dimHijo : List DimHijoRow
  deriving DecidableEq, Repr

/-- Fault flags selecting which database call raises a connectivity error
during a run: the watermark query of `get_max_date` (which re-raises), the
parent last-known-state query of `get_latest_state_from_db` (which catches
the error and returns an empty frame), and the parent history append
(`to_sql`, unguarded inside `run`'s outer `try`, hence fatal). -/
structure Faults where
  maxDateFails : Bool
  latestStatePadreFails : Bool
  persistPadreFails : Bool
  deriving DecidableEq, Repr

/-- All database calls succeed. -/
def noFaults : Faults := ⟨false, false, false⟩

/-- Outcome of one run: normal completion, or the exception re-raised at the
end of `run`, in both cases together with the tables as the process leaves
them. -/
inductive RunResult where
  | ok (db : DB)
  | fail (msg : String) (db : DB)
  deriving DecidableEq, Repr

/-- The database state a run result leaves behind. -/
def dbOf : RunResult → DB
  | .ok db => db
  | .fail _ db => db

/-- Whether a run completed without raising. -/
def isOk : RunResult → Bool
  | .ok _ => true
  | .fail _ _ => false

/-- `IncrementalETL.get_max_date` (etl_incremental.py:27-53) on a reachable
database: `None` when the table is absent or empty, otherwise the maximal
`fecha_registro` (an absent table and an existing empty table both yield
`None`, so both are modelled by `[]`). -/
def getMaxDate (h : List Row) : Option Nat :=
  match h with
  | [] => none
  | _ => some (maxFecha h)

/-- `IncrementalETL.extract_new_data` (etl_incremental.py:55-84): all raw rows
with `fecha_registro` strictly greater than the watermark; everything when the
watermark is `None`. -/
def extractNewData (raw : List RawRow) : Option Nat → List RawRow
  | none => raw
  | some w => raw.filter fun r => decide (w < r.fecha_registro)

/-- `IncrementalETL.get_latest_state_from_db` (etl_incremental.py:95-121)
including its error handling: any exception is caught, logged, and turned
into an empty frame. -/
def getLatestStateFromDb (fails : Bool) (hist : List Row) : List Row :=
  if fails then [] else lastStates hist

/-- The child branch of `IncrementalETL.run` (etl_incremental.py:512-549),
operating on the state left by the parent branch. -/
def runHijo (db : DB) (dfNew latestSnapshot : List RawRow) : DB :=
  let dfHijoRaw := dfNew.filter fun r => !(decide (r.folio_hijo = ""))
  if dfHijoRaw.isEmpty then db
  else
    let changes := processStatusChangesH (lastStatesH db.histHijo) (dfHijoRaw.map hijoView)
    let snapHijo := latestSnapshot.filter fun r => !(decide (r.folio_hijo = ""))
    let sup := detectSuprimidosHijo snapHijo db.histHijo
    let allHijo :=
      if sup.isEmpty then changes
      else
        let fullState := lastStatesH db.histHijo
        if fullState.isEmpty then changes
        else changes ++ sup.map fun s => mergeSupHijo s fullState
    if allHijo.isEmpty then db
    else
      let histHijo2 := db.histHijo ++ allHijo
      let affected :=
        dfHijoRaw.map (fun r => (r.cliente, r.folio_padre, r.folio_hijo)) ++
          sup.map fun s => (s.cliente, "", s.folio_hijo)
      let dimHijo2 := updateDimensionsHijo db.raw db.prestaciones db.dimPadre histHijo2
        db.dimHijo affected
      { db with histHijo := histHijo2, dimHijo := dimHijo2 }

/-- `IncrementalETL.run` (etl_incremental.py:462-555) under the given fault
flags: watermark, extraction (empty extraction exits cleanly), parent change
detection and suppression, parent history append, parent dimension rebuild,
then the child branch.  A raised exception is caught by the outer `try`,
logged and re-raised (`RunResult.fail`), leaving the tables as they were at
that point. -/
def runF (f : Faults) (db : DB) : RunResult :=
  if f.maxDateFails then .fail "get_max_date" db
  else
    let dfNew := extractNewData db.raw (getMaxDate db.histPadre)
    if dfNew.isEmpty then .ok db
    else
      let dfStatePadre := getLatestStateFromDb f.latestStatePadreFails db.histPadre
      let changesPadre := processStatusChanges dfStatePadre (dfNew.map padreView)
      let latestSnapshot := dfNew.filter fun r => decide (r.fecha_registro = maxFechaRaw dfNew)
      let supPadre := detectSuprimidosL (latestSnapshot.map padreView) db.histPadre
      let allPadre := changesPadre ++ supPadre
      if allPadre.isEmpty then .ok (runHijo db dfNew latestSnapshot)
      else if f.persistPadreFails then .fail "to_sql padre" db
      else
        let histPadre2 := db.histPadre ++ allPadre
        let affected := (dfNew.map (fun r => r.folio_padre) ++
          supPadre.map fun r => r.folio).dedup
        let dimPadre2 := updateDimensionsPadre db.raw db.infoGeneral histPadre2
          db.dimPadre affected
        .ok (runHijo { db with histPadre := histPadre2, dimPadre := dimPadre2 }
          dfNew latestSnapshot)

/-- One faultless incremental run. -/
def runIncremental (db : DB) : RunResult := runF noFaults db

/-- Calendar day of an abstract timestamp (1000 ticks per day), modelling
`Series.dt.date` against `date.today()` in the full-rebuild script. -/
def dateOf (t : Nat) : Nat := t / 1000

/-- The suppression step of the full-rebuild path (fix_ETL.py:42-47), on the
parent projection of the raw store: group by (cliente, folio_padre), take
each group's maximal `fecha_registro`, keep the groups whose day differs from
the run day (`date.today()`), and mark them with the sentinel status at their
own last-seen timestamp.  The final `drop_duplicates` of the script is a
no-op here because the grouping already yields one row per key. -/
def suprimidosFullPadre (raw : List Row) (today : Nat) : List Row :=
  (((keysOf raw).filterMap fun k => lastOfKey k raw).filter
      fun r => decide (dateOf r.fecha ≠ today)).map
    fun r => { r with estado := supStatus }

/-- `detect_suprimidos` including the possibility that the history table does
not exist: its `pd.read_sql_query` (etl_incremental.py:187-192) runs with no
table-existence check and no `try/except`, so an absent table raises, unlike
`get_latest_state_from_db`. -/
def detectSuprimidosT (snapshot : List Row) (hist : Option (List Row)) :
    Except String (List Row) :=
  match hist with
  | none => Except.error "relation does not exist"
  | some h => Except.ok (detectSuprimidosL snapshot h)

/-- A raw parent-only row (no child id) used by the concrete scenarios. -/
def rawP (cli fp e : String) (t : Nat) (asig : Option Nat) (url : String) : RawRow :=
  ⟨cli, fp, "", e, "", t, asig, "r", "n", "i", url, "", 0⟩

/-- Raw store of the re-run scenario: entity P1 appears only at time 1 and is
gone from the final slice at time 2, while P2 is present in both. -/
def exDB3 : DB :=
  ⟨[rawP "c" "P1" "A" 1 (some 1) "u1", rawP "c" "P2" "B" 1 (some 1) "u2",
    rawP "c" "P2" "B" 2 (some 1) "u2"], [], [], [], [], [], []⟩

/-- A batch exercising the stable-state scenario of claim C1: one entity with
status A at 1 and 2 and status B at 3. -/
def batchStable : List Row :=
  [⟨"c", "F", "A", 1⟩, ⟨"c", "F", "A", 2⟩, ⟨"c", "F", "B", 3⟩]

/-- Batches of the reappearance scenario: F and G appear at 1; F vanishes at
2 (suppressed); F reappears at 3 with status C; F vanishes again at 4. -/
def seqB1 : List Row := [⟨"c", "F", "A", 1⟩, ⟨"c", "G", "B", 1⟩]

/-- Second batch of the reappearance scenario. -/
def seqB2 : List Row := [⟨"c", "G", "B", 2⟩]

/-- Third batch of the reappearance scenario. -/
def seqB3 : List Row := [⟨"c", "F", "C", 3⟩, ⟨"c", "G", "B", 3⟩]

/-- Fourth batch of the reappearance scenario. -/
def seqB4 : List Row := [⟨"c", "G", "B", 4⟩]

/-- Database of the null-assignment-date scenario: folio PN has a history row
but its (only) static row carries a null `fecha_asignacion`. -/
def exDB4raw : List RawRow := [rawP "c" "PN" "A" 1 none "u"]

/-- History of the null-assignment-date scenario. -/
def exDB4hist : List Row := [⟨"c", "PN", "A", 1⟩]

/-- An existing parent dimension row for folio P (upsert scenario). -/
def exDimOld : DimPadreRow :=
  ⟨"c", "P", some 1, "r", "n", "i", "u", "legacy", none, none, none, none, none, none⟩

/-- The freshly computed replacement row for folio P (upsert scenario). -/
def exDimNew : DimPadreRow :=
  ⟨"c", "P", some 1, "r", "n", "i", "u", "current", some 2, none, none, none,
    some "Aceptado", some 2⟩

/-- Database of the persist-failure scenario: one raw row that yields both a
parent transition and a child transition. -/
def exDB6 : DB :=
  ⟨[⟨"c", "P", "H", "A", "X", 1, some 1, "r", "n", "i", "u", "", 0⟩], [], [], [], [], [], []⟩

/-- Database of the swallowed-connectivity-error scenario: the history already
records (P, A, 1) and the raw store only repeats status A at time 2, so a
faultless run appends nothing. -/
def exDB7 : DB :=
  ⟨[rawP "c" "P" "A" 1 (some 1) "u", rawP "c" "P" "A" 2 (some 1) "u"], [], [],
    [⟨"c", "P", "A", 1⟩], [], [], []⟩

/-- Parent projection of a raw store for the full-rebuild scenario: F1 last
seen on day 1 (tick 1000), F2 last seen on day 2 (tick 2000), which is the
globally latest snapshot timestamp. -/
def exRaw8 : List Row := [⟨"c", "F1", "A", 1000⟩, ⟨"c", "F2", "B", 2000⟩]

/-- A database whose raw store holds nothing beyond the parent-history
watermark, so a run must exit cleanly without writes. -/
def exDBnoop : DB :=
  ⟨[rawP "c" "P" "A" 1 (some 1) "u"], [], [], [⟨"c", "P", "A", 1⟩], [], [], []⟩

theorem mem_insertRow {r x : Row} {l : List Row} : x ∈ insertRow r l ↔ x = r ∨ x ∈ l := by
  induction l with
  | nil => simp [insertRow]
  | cons y ys ih =>
    simp only [insertRow]
    split
    · simp [ih]
      tauto
    · simp

theorem mem_sortFecha {x : Row} {l : List Row} : x ∈ sortFecha l ↔ x ∈ l := by
  induction l with
  | nil => simp [sortFecha]
  | cons y ys ih =>
    simp [sortFecha, mem_insertRow, ih]

theorem mem_changesInSeq {x : Row} : ∀ {p : Option String} {l : List Row},
    x ∈ changesInSeq p l → x ∈ l := by
  intro p l
  induction l generalizing p with
  | nil => intro h; cases h
  | cons y ys ih =>
    intro h
    simp only [changesInSeq] at h
    split at h
    · exact List.mem_cons_of_mem _ (ih h)
    · rcases List.mem_cons.mp h with rfl | h2
      · exact List.mem_cons_self _ _
      · exact List.mem_cons_of_mem _ (ih h2)

theorem mem_rowsOfKey {k : String × String} {l : List Row} {x : Row} :
    x ∈ rowsOfKey k l ↔ x ∈ l ∧ rkey x = k := by
  simp [rowsOfKey]

theorem minFecha_le {l : List Row} {x : Row} (hx : x ∈ l) : minFecha l ≤ x.fecha := by
  induction l with
  | nil => cases hx
  | cons r rs ih =>
    cases rs with
    | nil =>
      rcases List.mem_singleton.mp hx with rfl
      exact Nat.le_refl _
    | cons r2 rs2 =>
      rcases List.mem_cons.mp hx with rfl | hx2
      · exact Nat.min_le_left _ _
      · exact le_trans (Nat.min_le_right _ _) (ih hx2)

theorem lt_minFecha {l : List Row} {c : Nat} (h : ∀ x ∈ l, c < x.fecha) (hne : l ≠ []) :
    c < minFecha l := by
  induction l with
  | nil => exact absurd rfl hne
  | cons r rs ih =>
    cases rs with
    | nil => exact h r (List.mem_singleton_self _)
    | cons r2 rs2 =>
      have h1 := h r (List.mem_cons_self _ _)
      have h2 := ih (fun x hx => h x (List.mem_cons_of_mem _ hx)) (List.cons_ne_nil _ _)
      exact lt_min h1 h2

theorem maxFecha_ge {l : List Row} {x : Row} (hx : x ∈ l) : x.fecha ≤ maxFecha l := by
  induction l with
  | nil => cases hx
  | cons r rs ih =>
    cases rs with
    | nil =>
      rcases List.mem_singleton.mp hx with rfl
      exact Nat.le_refl _
    | cons r2 rs2 =>
      rcases List.mem_cons.mp hx with rfl | hx2
      · exact Nat.le_max_left _ _
      · exact le_trans (ih hx2) (Nat.le_max_right _ _)

theorem maxFecha_mem {l : List Row} (hne : l ≠ []) : ∃ x ∈ l, x.fecha = maxFecha l := by
  induction l with
  | nil => exact absurd rfl hne
  | cons r rs ih =>
    cases rs with
    | nil => exact ⟨r, List.mem_singleton_self _, rfl⟩
    | cons r2 rs2 =>
      rcases ih (List.cons_ne_nil _ _) with ⟨y, hy, hyf⟩
      rcases Nat.le_total r.fecha (maxFecha (r2 :: rs2)) with hle | hge
      · refine ⟨y, List.mem_cons_of_mem _ hy, ?_⟩
        show y.fecha = max r.fecha (maxFecha (r2 :: rs2))
        omega
      · refine ⟨r, List.mem_cons_self _ _, ?_⟩
        show r.fecha = max r.fecha (maxFecha (r2 :: rs2))
        omega

theorem maxFecha_const {l : List Row} {M : Nat} (h : ∀ x ∈ l, x.fecha = M) (hne : l ≠ []) :
    maxFecha l = M := by
  rcases maxFecha_mem hne with ⟨x, hx, hxf⟩
  rw [← hxf, h x hx]

theorem mem_changesBase {db new : List Row} {x : Row}
    (hx : x ∈ (keysOf (db ++ new)).flatMap fun k =>
      changesInSeq none (sortFecha (rowsOfKey k (db ++ new)))) : x ∈ db ++ new := by
  rcases List.mem_flatMap.mp hx with ⟨k, _, hxk⟩
  exact (mem_rowsOfKey.mp (mem_sortFecha.mp (mem_changesInSeq hxk))).1

theorem mem_processStatusChanges {db new : List Row} {x : Row}
    (hx : x ∈ processStatusChanges db new) :
    x ∈ db ++ new ∧ minFecha new ≤ x.fecha := by
  unfold processStatusChanges at hx
  split at hx
  · cases hx
  · have h1 := List.mem_filter.mp hx
    exact ⟨mem_changesBase h1.1, by simpa using h1.2⟩

theorem processStatusChanges_eq_spec {db new : List Row}
    (h : ∀ s ∈ db, ∀ n ∈ new, s.fecha < n.fecha) :
    processStatusChanges db new = specStatusChanges db new := by
  unfold processStatusChanges specStatusChanges
  split
  next hEmpty =>
    have hnil : new = [] := by simpa using hEmpty
    subst hnil
    rw [List.filter_eq_nil_iff.mpr]
    intro x _
    simp
  next hEmpty =>
    have hnil : new ≠ [] := by simpa using hEmpty
    apply List.filter_congr
    intro x hx
    have hmem : x ∈ db ++ new := mem_changesBase hx
    rcases List.mem_append.mp hmem with hdb | hnew
    · have hlt : x.fecha < minFecha new := lt_minFecha (fun n hn => h x hdb n hn) hnil
      have h2 : x ∉ new := fun hmem2 => absurd (h x hdb x hmem2) (lt_irrefl _)
      simp only [decide_eq_decide]
      constructor
      · intro hle
        omega
      · intro hmem2
        exact absurd hmem2 h2
    · simp only [decide_eq_decide]
      exact ⟨fun _ => hnew, fun _ => minFecha_le hnew⟩

theorem pickLast_mem : ∀ {l : List Row} {r : Row}, pickLast l = some r → r ∈ l := by
  intro l
  induction l with
  | nil => intro r h; cases h
  | cons y ys ih =>
    intro r h
    cases hys : pickLast ys with
    | none =>
      simp only [pickLast, hys] at h
      have e := Option.some.inj h
      subst e
      exact List.mem_cons_self _ _
    | some m =>
      simp only [pickLast, hys] at h
      by_cases hc : y.fecha ≤ m.fecha
      · rw [if_pos hc] at h
        have e := Option.some.inj h
        subst e
        exact List.mem_cons_of_mem _ (ih hys)
      · rw [if_neg hc] at h
        have e := Option.some.inj h
        subst e
        exact List.mem_cons_self _ _

theorem pickLast_eq_none : ∀ {l : List Row}, pickLast l = none ↔ l = [] := by
  intro l
  cases l with
  | nil => simp [pickLast]
  | cons y ys =>
    constructor
    · intro h
      cases hys : pickLast ys with
      | none =>
        simp only [pickLast, hys] at h
        cases h
      | some m =>
        simp only [pickLast, hys] at h
        by_cases hc : y.fecha ≤ m.fecha
        · rw [if_pos hc] at h; cases h
        · rw [if_neg hc] at h; cases h
    · intro h
      cases h

theorem pickLast_le : ∀ {l : List Row} {r : Row}, pickLast l = some r →
    ∀ x ∈ l, x.fecha ≤ r.fecha := by
  intro l
  induction l with
  | nil => intro r _ x hx; cases hx
  | cons y ys ih =>
    intro r h x hx
    cases hys : pickLast ys with
    | none =>
      simp only [pickLast, hys] at h
      have e := Option.some.inj h
      subst e
      have hnil : ys = [] := pickLast_eq_none.mp hys
      subst hnil
      rcases List.mem_singleton.mp hx with rfl
      exact Nat.le_refl _
    | some m =>
      simp only [pickLast, hys] at h
      have hmy : ∀ x ∈ ys, x.fecha ≤ m.fecha := ih hys
      by_cases hc : y.fecha ≤ m.fecha
      · rw [if_pos hc] at h
        have e := Option.some.inj h
        subst e
        rcases List.mem_cons.mp hx with rfl | hx2
        · exact hc
        · exact hmy x hx2
      · rw [if_neg hc] at h
        have e := Option.some.inj h
        subst e
        rcases List.mem_cons.mp hx with rfl | hx2
        · exact Nat.le_refl _
        · have h2 := hmy x hx2
          omega

theorem lastOfKey_key {k : String × String} {h : List Row} {r : Row}
    (hr : lastOfKey k h = some r) : rkey r = k :=
  (mem_rowsOfKey.mp (pickLast_mem hr)).2

theorem mem_lastStates {h : List Row} {x : Row} (hx : x ∈ lastStates h) :
    x ∈ h ∧ ∀ y ∈ h, rkey y = rkey x → y.fecha ≤ x.fecha := by
  rcases List.mem_filterMap.mp hx with ⟨k, _, hlk⟩
  have hxk := lastOfKey_key hlk
  have hmem := pickLast_mem hlk
  refine ⟨(mem_rowsOfKey.mp hmem).1, fun y hy hky => ?_⟩
  exact pickLast_le hlk y (mem_rowsOfKey.mpr ⟨hy, by rw [hky, hxk]⟩)

theorem lastStates_complete {h : List Row} {y : Row} (hy : y ∈ h) :
    ∃ x ∈ lastStates h, rkey x = rkey y := by
  have hk : rkey y ∈ keysOf h := List.mem_dedup.mpr (List.mem_map_of_mem _ hy)
  cases hp : pickLast (rowsOfKey (rkey y) h) with
  | none =>
    exfalso
    have hnil := pickLast_eq_none.mp hp
    have : y ∈ rowsOfKey (rkey y) h := mem_rowsOfKey.mpr ⟨hy, rfl⟩
    rw [hnil] at this
    cases this
  | some r =>
    exact ⟨r, List.mem_filterMap.mpr ⟨rkey y, hk, hp⟩, lastOfKey_key hp⟩

theorem filterMap_key_count (ks : List (String × String)) (f : String × String → Option Row)
    (hf : ∀ k r, f k = some r → rkey r = k) (hnd : ks.Nodup) (k : String × String) :
    (rowsOfKey k (ks.filterMap f)).length ≤ 1 := by
  induction ks with
  | nil => simp [rowsOfKey]
  | cons a as ih =>
    have hna := (List.nodup_cons.mp hnd).1
    have hnd2 := (List.nodup_cons.mp hnd).2
    cases hfa : f a with
    | none => simpa [List.filterMap_cons, hfa] using ih hnd2
    | some r =>
      simp only [List.filterMap_cons, hfa]
      by_cases hk : rkey r = k
      · have hrest : rowsOfKey k (as.filterMap f) = [] := by
          unfold rowsOfKey
          rw [List.filter_eq_nil_iff]
          intro x hx
          rcases List.mem_filterMap.mp hx with ⟨k2, hk2, hfk2⟩
          simp only [decide_eq_true_eq, Bool.not_eq_true]
          intro hxk
          apply hna
          have e1 : k2 = k := by rw [← hf k2 x hfk2, hxk]
          have e2 : a = k := by rw [← hf a r hfa, hk]
          rw [e2, ← e1]
          exact hk2
        unfold rowsOfKey
        rw [List.filter_cons]
        simp only [hk, decide_eq_true_eq]
        rw [if_pos trivial]
        unfold rowsOfKey at hrest
        rw [hrest]
        simp
      · unfold rowsOfKey
        rw [List.filter_cons]
        simp only [decide_eq_true_eq]
        rw [if_neg hk]
        exact ih hnd2

theorem lastStates_key_count (h : List Row) (k : String × String) :
    (rowsOfKey k (lastStates h)).length ≤ 1 :=
  filterMap_key_count _ _ (fun _ _ hr => lastOfKey_key hr) (List.nodup_dedup _) k

theorem mem_detectSuprimidos {snap hist : List Row} {x : Row} :
    x ∈ detectSuprimidosL snap hist ↔
      ∃ r ∈ lastStates hist, r.estado ≠ supStatus ∧ (∀ s ∈ snap, rkey s ≠ rkey r) ∧
        x = { r with estado := supStatus, fecha := maxFecha snap } := by
  simp only [detectSuprimidosL]
  split
  next hEmpty =>
    simp only [List.not_mem_nil, false_iff]
    rintro ⟨r, hr, -⟩
    rw [List.isEmpty_iff.mp hEmpty] at hr
    cases hr
  next =>
    split
    next hMissing =>
      simp only [List.not_mem_nil, false_iff]
      rintro ⟨r, hr, hsup, habs, -⟩
      have : r ∈ (List.filter (fun r => !(snap.any fun s => decide (rkey s = rkey r)))
          (List.filter (fun r => !(decide (r.estado = supStatus))) (lastStates hist))) := by
        rw [List.mem_filter, List.mem_filter]
        refine ⟨⟨hr, ?_⟩, ?_⟩
        · simpa using hsup
        · simp only [Bool.not_eq_eq_eq_not, Bool.not_true, List.any_eq_false,
            decide_eq_false_iff_not, decide_eq_true_eq]
          exact fun s hs => habs s hs
      rw [List.isEmpty_iff.mp hMissing] at this
      cases this
    next =>
      rw [List.mem_map]
      constructor
      · rintro ⟨r, hr, rfl⟩
        rw [List.mem_filter, List.mem_filter] at hr
        refine ⟨r, hr.1.1, by simpa using hr.1.2, ?_, rfl⟩
        have h2 := hr.2
        simp only [Bool.not_eq_eq_eq_not, Bool.not_true, List.any_eq_false,
          decide_eq_false_iff_not, decide_eq_true_eq] at h2
        exact h2
      · rintro ⟨r, hr, hsup, habs, rfl⟩
        refine ⟨r, ?_, rfl⟩
        rw [List.mem_filter, List.mem_filter]
        refine ⟨⟨hr, by simpa using hsup⟩, ?_⟩
        simp only [Bool.not_eq_eq_eq_not, Bool.not_true, List.any_eq_false,
          decide_eq_false_iff_not, decide_eq_true_eq]
        exact fun s hs => habs s hs

theorem rkey_set (r : Row) (e : String) (d : Nat) :
    rkey { r with estado := e, fecha := d } = rkey r := rfl

theorem rowsOfKey_append (k : String × String) (a b : List Row) :
    rowsOfKey k (a ++ b) = rowsOfKey k a ++ rowsOfKey k b := by
  unfold rowsOfKey
  exact List.filter_append _ _

theorem changes_subset_batch {hist batch : List Row} {x : Row}
    (hwm : ∀ r ∈ hist, ∀ b ∈ batch, r.fecha < b.fecha)
    (hx : x ∈ processStatusChanges (lastStates hist) batch) : x ∈ batch := by
  rcases mem_processStatusChanges hx with ⟨hmem, hmin⟩
  rcases List.mem_append.mp hmem with hdb | hb
  · exfalso
    have hxh : x ∈ hist := (mem_lastStates hdb).1
    have hne : batch ≠ [] := by
      intro hnil
      subst hnil
      simp [processStatusChanges] at hx
    have := lt_minFecha (fun b hb2 => hwm x hxh b hb2) hne
    omega
  · exact hb

theorem keyHist_supFree_of_active {hist : List Row} {r0 : Row}
    (hInv : SentinelInv hist) (hr0 : r0 ∈ lastStates hist) (hact : r0.estado ≠ supStatus) :
    ∀ x ∈ rowsOfKey (rkey r0) hist, x.estado ≠ supStatus := by
  intro x hxk hxe
  have hfin := (hInv (rkey r0)).2 x hxk hxe
  rcases mem_lastStates hr0 with ⟨hr0h, hr0max⟩
  have hr0k : r0 ∈ rowsOfKey (rkey r0) hist := mem_rowsOfKey.mpr ⟨hr0h, rfl⟩
  have h1 : r0.fecha < x.fecha := hfin r0 hr0k hact
  have h2 : x.fecha ≤ r0.fecha :=
    hr0max x (mem_rowsOfKey.mp hxk).1 (mem_rowsOfKey.mp hxk).2
  omega

theorem rowsOfKey_map_sup (k : String × String) (M : Nat) (l : List Row) :
    rowsOfKey k (l.map fun r => { r with estado := supStatus, fecha := M }) =
      (rowsOfKey k l).map fun r => { r with estado := supStatus, fecha := M } := by
  unfold rowsOfKey
  rw [List.filter_map]
  rfl

theorem sup_key_len (slice hist : List Row) (k : String × String) :
    (rowsOfKey k (detectSuprimidosL slice hist)).length ≤ 1 := by
  simp only [detectSuprimidosL]
  split
  next => simp [rowsOfKey]
  next =>
    split
    next => simp [rowsOfKey]
    next =>
      rw [rowsOfKey_map_sup, List.length_map]
      have hsub : List.Sublist
          (List.filter (fun r => !(slice.any fun s => decide (rkey s = rkey r)))
            (List.filter (fun r => !(decide (r.estado = supStatus))) (lastStates hist)))
          (lastStates hist) :=
        List.Sublist.trans (List.filter_sublist _) (List.filter_sublist _)
      have h1 := List.Sublist.length_le
        (List.Sublist.filter (fun r => decide (rkey r = k)) hsub)
      have h2 := lastStates_key_count hist k
      unfold rowsOfKey at h2 ⊢
      omega

theorem sentinelInv_extend {hist changes sup : List Row} {M : Nat}
    (hInv : SentinelInv hist)
    (hold : ∀ r ∈ hist, r.fecha < M)
    (hchM : ∀ x ∈ changes, x.fecha ≤ M ∧ x.estado ≠ supStatus)
    (hchOld : ∀ x ∈ changes, ∀ r ∈ hist, rkey r = rkey x → r.estado ≠ supStatus)
    (hsupE : ∀ x ∈ sup, x.estado = supStatus ∧ x.fecha = M)
    (hsupOld : ∀ x ∈ sup, ∀ r ∈ rowsOfKey (rkey x) hist, r.estado ≠ supStatus)
    (hsupCh : ∀ x ∈ sup, ∀ c ∈ changes, rkey c = rkey x → c.fecha ≠ M)
    (hsupLen : ∀ k, (rowsOfKey k sup).length ≤ 1) :
    SentinelInv (hist ++ (changes ++ sup)) := by
  intro k
  have hsplit : rowsOfKey k (hist ++ (changes ++ sup)) =
      rowsOfKey k hist ++ (rowsOfKey k changes ++ rowsOfKey k sup) := by
    rw [rowsOfKey_append, rowsOfKey_append]
  rw [hsplit]
  constructor
  · rw [List.countP_append, List.countP_append]
    have hc0 : (rowsOfKey k changes).countP (fun r => decide (r.estado = supStatus)) = 0 := by
      rw [List.countP_eq_zero]
      intro a ha
      have h2 := (hchM a (mem_rowsOfKey.mp ha).1).2
      simpa using h2
    by_cases hsupNil : rowsOfKey k sup = []
    · rw [hsupNil]
      simp only [List.countP_nil]
      have hOld := (hInv k).1
      omega
    · obtain ⟨y, hy⟩ := List.exists_mem_of_ne_nil _ hsupNil
      have hyk := (mem_rowsOfKey.mp hy).2
      have hysup := (mem_rowsOfKey.mp hy).1
      have hOld0 : (rowsOfKey k hist).countP (fun r => decide (r.estado = supStatus)) = 0 := by
        rw [List.countP_eq_zero]
        intro a ha
        have h2 := hsupOld y hysup a (by rw [hyk]; exact ha)
        simpa using h2
      have hsupCnt : (rowsOfKey k sup).countP (fun r => decide (r.estado = supStatus)) ≤
          (rowsOfKey k sup).length := List.countP_le_length _
      have hlen := hsupLen k
      omega
  · intro r hr hre x hx hxe
    rcases List.mem_append.mp hr with hrOld | hrNew
    · rcases List.mem_append.mp hx with hxOld | hxNew
      · exact (hInv k).2 r hrOld hre x hxOld hxe
      · rcases List.mem_append.mp hxNew with hxCh | hxSup
        · exfalso
          have hxc := (mem_rowsOfKey.mp hxCh).1
          have hkx := (mem_rowsOfKey.mp hxCh).2
          have hrh := (mem_rowsOfKey.mp hrOld).1
          have hkr := (mem_rowsOfKey.mp hrOld).2
          exact hchOld x hxc r hrh (by rw [hkr, hkx]) hre
        · exact absurd (hsupE x (mem_rowsOfKey.mp hxSup).1).1 hxe
    · rcases List.mem_append.mp hrNew with hrCh | hrSup
      · exact absurd hre (hchM r (mem_rowsOfKey.mp hrCh).1).2
      · have hrE := hsupE r (mem_rowsOfKey.mp hrSup).1
        rw [hrE.2]
        rcases List.mem_append.mp hx with hxOld | hxNew
        · exact hold x (mem_rowsOfKey.mp hxOld).1
        · rcases List.mem_append.mp hxNew with hxCh | hxSup
          · have hxc := (mem_rowsOfKey.mp hxCh).1
            have hle := (hchM x hxc).1
            have hneq : x.fecha ≠ M := by
              apply hsupCh r (mem_rowsOfKey.mp hrSup).1 x hxc
              rw [(mem_rowsOfKey.mp hxCh).2, (mem_rowsOfKey.mp hrSup).2]
            omega
          · exact absurd (hsupE x (mem_rowsOfKey.mp hxSup).1).1 hxe

theorem sentinelInv_step {hist batch : List Row}
    (hInv : SentinelInv hist) (hne : batch ≠ [])
    (hwm : ∀ r ∈ hist, ∀ b ∈ batch, r.fecha < b.fecha)
    (hnosup : ∀ b ∈ batch, b.estado ≠ supStatus)
    (hnore : ∀ b ∈ batch, ∀ r ∈ hist, rkey r = rkey b → r.estado ≠ supStatus) :
    SentinelInv (runPadreHistory hist batch) := by
  simp only [runPadreHistory]
  split
  next => exact hInv
  next =>
    obtain ⟨b0, hb0, hb0M⟩ := maxFecha_mem hne
    have hsliceMem : ∀ s ∈ batch.filter (fun b => decide (b.fecha = maxFecha batch)),
        s ∈ batch ∧ s.fecha = maxFecha batch := by
      intro s hs
      have h2 := List.mem_filter.mp hs
      exact ⟨h2.1, by simpa using h2.2⟩
    have hsliceNe : batch.filter (fun b => decide (b.fecha = maxFecha batch)) ≠ [] := by
      intro hnil
      have hmem : b0 ∈ batch.filter (fun b => decide (b.fecha = maxFecha batch)) :=
        List.mem_filter.mpr ⟨hb0, by simpa using hb0M⟩
      rw [hnil] at hmem
      cases hmem
    have hsliceM : maxFecha (batch.filter fun b => decide (b.fecha = maxFecha batch)) =
        maxFecha batch :=
      maxFecha_const (fun x hx => (hsliceMem x hx).2) hsliceNe
    refine @sentinelInv_extend hist _ _ (maxFecha batch) hInv ?_ ?_ ?_ ?_ ?_ ?_ ?_
    · intro r hr
      have := hwm r hr b0 hb0
      omega
    · intro x hx
      have hxb := changes_subset_batch hwm hx
      exact ⟨maxFecha_ge hxb, hnosup x hxb⟩
    · intro x hx r hr hk
      exact hnore x (changes_subset_batch hwm hx) r hr hk
    · intro x hx
      rcases mem_detectSuprimidos.mp hx with ⟨r0, hr0, hact, habs, rfl⟩
      exact ⟨rfl, by rw [hsliceM]⟩
    · intro x hx
      rcases mem_detectSuprimidos.mp hx with ⟨r0, hr0, hact, habs, rfl⟩
      intro r hr
      have hr2 : r ∈ rowsOfKey (rkey r0) hist := hr
      exact keyHist_supFree_of_active hInv hr0 hact r hr2
    · intro x hx c hc hkc hceq
      rcases mem_detectSuprimidos.mp hx with ⟨r0, hr0, hact, habs, rfl⟩
      have hcb := changes_subset_batch hwm hc
      have hcslice : c ∈ batch.filter (fun b => decide (b.fecha = maxFecha batch)) :=
        List.mem_filter.mpr ⟨hcb, by simpa using hceq⟩
      exact absurd hkc (habs c hcslice)
    · exact fun k => sup_key_len _ hist k

theorem sentinelInv_nil : SentinelInv [] := by
  intro k
  constructor
  · simp [rowsOfKey]
  · intro r hr
    simp [rowsOfKey] at hr

theorem sentinelInv_fold : ∀ (bs : List (List Row)) (h : List Row),
    SentinelInv h → goodRuns h bs = true →
    SentinelInv (List.foldl runPadreHistory h bs) := by
  intro bs
  induction bs with
  | nil =>
    intro h hI _
    simpa using hI
  | cons b bs ih =>
    intro h hI hg
    simp only [goodRuns, Bool.and_eq_true] at hg
    obtain ⟨⟨⟨⟨hne, hwm⟩, hnosup⟩, hnore⟩, hrest⟩ := hg
    rw [List.foldl_cons]
    apply ih
    · apply sentinelInv_step hI
      · simpa using hne
      · intro r hr x hx
        simp only [List.all_eq_true, decide_eq_true_eq] at hwm
        exact hwm r hr x hx
      · intro x hx
        simp only [List.all_eq_true, Bool.not_eq_true', decide_eq_false_iff_not] at hnosup
        exact hnosup x hx
      · intro x hx r hr hk
        simp only [List.all_eq_true, Bool.or_eq_true, Bool.not_eq_true',
          decide_eq_false_iff_not] at hnore
        exact (hnore x hx r hr).resolve_left (not_not_intro hk)
    · exact hrest

/-- C1: the change detector run-length-compresses consecutive equal statuses.
Provided the persisted prior state lies strictly before the new batch (the
watermark guarantees this in `run`), `process_status_changes` emits exactly
the rows of the new batch whose status differs from their immediate
predecessor's in the (entity key, timestamp)-sorted concatenation of prior
state and batch, an absent predecessor always counting as a transition; and
on the concrete stable-state scenario (status A at 1, A at 2, B at 3 from an
empty history) the persisted history is exactly [(1, A), (3, B)], with no
record for time 2. -/
theorem status_change_emission (dbState newRows : List Row)
    (hwm : ∀ s ∈ dbState, ∀ n ∈ newRows, s.fecha < n.fecha) :
    processStatusChanges dbState newRows = specStatusChanges dbState newRows ∧
    runPadreHistory [] batchStable = [⟨"c", "F", "A", 1⟩, ⟨"c", "F", "B", 3⟩] :=
  ⟨processStatusChanges_eq_spec hwm, by decide⟩

/-- Witness for C1: the watermark hypothesis holds for an empty prior state
and the stable-state batch, and the theorem applies there. -/
theorem status_change_emission_witness :
    (∀ s ∈ ([] : List Row), ∀ n ∈ batchStable, s.fecha < n.fecha) ∧
      (processStatusChanges [] batchStable = specStatusChanges [] batchStable ∧
        runPadreHistory [] batchStable = [⟨"c", "F", "A", 1⟩, ⟨"c", "F", "B", 3⟩]) :=
  ⟨by decide, status_change_emission [] batchStable (by decide)⟩

/-- C2 counterexample: after the four-batch sequence in which entity (c, F)
is suppressed at time 2, reappears at time 3 and vanishes again at time 4,
its persisted history holds the sentinel status twice; and already after
three batches the sentinel is not the final record of the key (the final one
is (C, 3)). -/
theorem sentinel_reappearance_counterexample :
    (rowsOfKey ("c", "F") (List.foldl runPadreHistory [] [seqB1, seqB2, seqB3, seqB4])).countP
        (fun r => decide (r.estado = supStatus)) = 2 ∧
    (rowsOfKey ("c", "F") (List.foldl runPadreHistory [] [seqB1, seqB2, seqB3])).getLast? =
      some ⟨"c", "F", "C", 3⟩ := by decide

/-- C2 (amended): over any sequence of incremental runs from an empty history
in which every batch is non-empty, lies strictly beyond the accumulated
watermark, carries no sentinel status itself, and contains no entity key
whose persisted last status is the sentinel (no reappearance after
suppression), the sentinel appears at most once per entity key and strictly
later than every other record of that key. -/
theorem sentinel_invariant_amended (bs : List (List Row))
    (hg : goodRuns [] bs = true) :
    SentinelInv (List.foldl runPadreHistory [] bs) :=
  sentinelInv_fold bs [] sentinelInv_nil hg

/-- Witness for C2 (amended): the two-batch disappearance scenario satisfies
the side conditions and the invariant follows from the theorem. -/
theorem sentinel_invariant_amended_witness :
    goodRuns [] [seqB1, seqB2] = true ∧
      SentinelInv (List.foldl runPadreHistory [] [seqB1, seqB2]) :=
  ⟨by decide, sentinel_invariant_amended [seqB1, seqB2] (by decide)⟩

/-- C3 counterexample: on a raw store in which entity P1 appears at time 1
and has vanished by the final slice at time 2, a first run records P1's
transition but no suppression (P1 is not yet in the history table when
`detect_suprimidos` reads it), and leaves the watermark at 1 < 2; a second
run with no new raw rows then re-extracts the final slice and appends a
sentinel record for P1, so the history tables of the two runs differ. -/
theorem rerun_appends_counterexample :
    isOk (runIncremental exDB3) = true ∧
    isOk (runIncremental (dbOf (runIncremental exDB3))) = true ∧
    (dbOf (runIncremental exDB3)).histPadre.length = 2 ∧
    (dbOf (runIncremental (dbOf (runIncremental exDB3)))).histPadre.length = 3 ∧
    (dbOf (runIncremental (dbOf (runIncremental exDB3)))).histPadre ≠
      (dbOf (runIncremental exDB3)).histPadre := by decide

/-- C3 (amended): a rerun is a no-op exactly when its extraction window is
empty: whenever the parent-history watermark is at or beyond every raw
timestamp — in particular after a first run that persisted a record at the
batch's final timestamp — `run` performs no writes and returns the database
unchanged.  When the first run's appended records all predate the batch's
final slice, the second run can instead append a late suppression record, as
the counterexample shows. -/
theorem rerun_noop_amended (db : DB) (w : Nat)
    (hw : getMaxDate db.histPadre = some w)
    (hle : ∀ r ∈ db.raw, r.fecha_registro ≤ w) :
    runIncremental db = RunResult.ok db := by
  have hextract : extractNewData db.raw (getMaxDate db.histPadre) = [] := by
    rw [hw]
    unfold extractNewData
    rw [List.filter_eq_nil_iff]
    intro r hr
    have := hle r hr
    simp only [decide_eq_true_eq, Bool.not_eq_true, decide_eq_false_iff_not]
    omega
  simp only [runIncremental, runF, noFaults, hextract]
  rfl

/-- Witness for C3 (amended): a database whose raw store does not reach past
its parent-history watermark, on which the run exits without writes. -/
theorem rerun_noop_amended_witness :
    (getMaxDate exDBnoop.histPadre = some 1 ∧
      (∀ r ∈ exDBnoop.raw, r.fecha_registro ≤ 1)) ∧
    runIncremental exDBnoop = RunResult.ok exDBnoop :=
  ⟨⟨by decide, by decide⟩, rerun_noop_amended exDBnoop 1 (by decide) (by decide)⟩

/-- C4 counterexample: a parent entity whose only static row carries a null
assignment date satisfies neither the "current" filter nor the "legacy"
filter (both comparisons are false against `NaT`), so the dimension
rebuilder drops it entirely: the rebuilt dimension for folio PN is empty. -/
theorem classification_null_counterexample :
    isCurrentDate none (some 1) = false ∧
    isLegacyDate none (some 1) = false ∧
    updateDimensionsPadre exDB4raw [] exDB4hist [] ["PN"] = [] := by decide

/-- C4 (amended): a parent entity whose assignment date and client start date
are both non-null is classified as exactly one of "current" and "legacy"; a
null on either side fails both filters, so the entity lands in neither half
of the partition and is dropped from the rebuilt dimension (and in
particular no entity is ever in both halves). -/
theorem classification_amended (a p : Nat) (asig primer : Option Nat)
    (raw : List RawRow) (dfStatic : List StaticPadre) :
    (isCurrentDate (some a) (some p) = true ↔ isLegacyDate (some a) (some p) = false) ∧
    isCurrentDate none primer = false ∧
    isLegacyDate none primer = false ∧
    isCurrentDate asig none = false ∧
    isLegacyDate asig none = false ∧
    ((padreCurrentLegacy raw dfStatic).1.filter
      (fun x => decide (x ∈ (padreCurrentLegacy raw dfStatic).2))) = [] := by
  refine ⟨?_, rfl, rfl, ?_, ?_, ?_⟩
  · simp only [isCurrentDate, isLegacyDate, decide_eq_true_eq, decide_eq_false_iff_not]
    omega
  · cases asig <;> rfl
  · cases asig <;> rfl
  · rw [List.filter_eq_nil_iff]
    intro x hx
    simp only [decide_eq_true_eq, Bool.not_eq_true, decide_eq_false_iff_not]
    intro hx2
    simp only [padreCurrentLegacy, List.mem_filter] at hx hx2
    have h1 := hx.2
    have h2 := hx2.2
    cases hA : x.1.fecha_asignacion with
    | none =>
      rw [hA] at h1
      simp [isCurrentDate] at h1
    | some av =>
      cases hP : x.2 with
      | none =>
        rw [hA, hP] at h1
        simp [isCurrentDate] at h1
      | some pv =>
        rw [hA, hP] at h1 h2
        simp only [isCurrentDate, isLegacyDate, decide_eq_true_eq] at h1 h2
        omega

/-- C5 counterexample: in the parent rebuilder the delete runs in its own
caught `try`, so when the delete fails the insert still proceeds and the new
row is appended alongside the old one — the table is neither unchanged nor
cleanly replaced. -/
theorem upsert_not_atomic_counterexample :
    upsertDimPadre true false [exDimOld] ["P"] [exDimNew] = [exDimOld, exDimNew] ∧
    upsertDimPadre true false [exDimOld] ["P"] [exDimNew] ≠ [exDimOld] ∧
    upsertDimPadre true false [exDimOld] ["P"] [exDimNew] ≠ [exDimNew] := by decide

/-- C5 (amended): the delete and the insert are two separate transactions,
not one atomic unit.  Parent path: a failed (caught) delete still inserts,
leaving old and new rows side by side; a failed insert leaves the committed
delete without its replacement.  Child path: delete and insert share one
caught `try`, so a failed delete skips the insert and keeps the table
unchanged, while a failed insert still leaves the committed delete. -/
theorem upsert_failure_semantics (dim : List DimPadreRow) (folios : List String)
    (rows : List DimPadreRow) (dimH : List DimHijoRow) (fh : List String)
    (rowsH : List DimHijoRow) :
    upsertDimPadre true false dim folios rows = dim ++ rows ∧
    upsertDimPadre false true dim folios rows =
      dim.filter (fun r => !(folios.contains r.folio_padre)) ∧
    upsertDimHijo true false dimH fh rowsH = dimH ∧
    upsertDimHijo true true dimH fh rowsH = dimH ∧
    upsertDimHijo false true dimH fh rowsH =
      dimH.filter (fun r => !(fh.contains r.folio_hijo)) :=
  ⟨rfl, rfl, rfl, rfl, rfl⟩

/-- C6 counterexample: on a database whose one raw row yields both a parent
and a child transition, a failure while persisting the parent
TransitionRecords aborts the entire run with every table untouched — the
child branch does not proceed, although a faultless run would have appended
to the child history. -/
theorem persist_failure_counterexample :
    runF ⟨false, false, true⟩ exDB6 = RunResult.fail "to_sql padre" exDB6 ∧
    (dbOf (runF ⟨false, false, true⟩ exDB6)).histHijo = ([] : List HijoRow) ∧
    (dbOf (runIncremental exDB6)).histHijo ≠ ([] : List HijoRow) := by decide

/-- C6 (amended): a failure while persisting parent TransitionRecords is
fatal for the entire run, not only for the parent branch: `run`'s outer
`try` re-raises it before the child branch executes, and whenever the run
fails with this fault every table is left exactly as it was. -/
theorem persist_failure_aborts_run (db : DB) (m : String) (r : DB)
    (h : runF ⟨false, false, true⟩ db = RunResult.fail m r) : r = db := by
  simp only [runF, getLatestStateFromDb] at h
  split at h
  · exact (RunResult.fail.inj h).2.symm
  · split at h
    · cases h
    · split at h
      · cases h
      · split at h
        · exact (RunResult.fail.inj h).2.symm
        · cases h

/-- Witness for C6 (amended): the failing run on the concrete database, with
the theorem applied to its outcome. -/
theorem persist_failure_aborts_run_witness :
    runF ⟨false, false, true⟩ exDB6 = RunResult.fail "to_sql padre" exDB6 ∧ exDB6 = exDB6 :=
  ⟨by decide, persist_failure_aborts_run exDB6 "to_sql padre" exDB6 (by decide)⟩

/-- C7 counterexample: on a database where a faultless run is a no-op, a
connectivity error in the last-known-state query is swallowed into an empty
prior state and the run still completes successfully — and, having lost the
prior state, it appends a duplicate record: the error was silently converted
into an empty result that let the run continue and write side effects. -/
theorem latest_state_swallow_counterexample :
    runIncremental exDB7 = RunResult.ok exDB7 ∧
    isOk (runF ⟨false, true, false⟩ exDB7) = true ∧
    (dbOf (runF ⟨false, true, false⟩ exDB7)).histPadre ≠ exDB7.histPadre := by decide

/-- C7 (amended): connectivity errors are not uniformly fatal.  The
watermark query (`get_max_date`) re-raises and aborts the run, but
`get_latest_state_from_db` catches any error and returns an empty frame, and
a run whose only fault is in that query always completes without raising. -/
theorem latest_state_swallow_amended :
    (∀ hist : List Row, getLatestStateFromDb true hist = []) ∧
    (∀ db : DB, runF ⟨true, false, false⟩ db = RunResult.fail "get_max_date" db) ∧
    (∀ db : DB, ∃ d, runF ⟨false, true, false⟩ db = RunResult.ok d) := by
  refine ⟨fun _ => rfl, fun _ => rfl, ?_⟩
  intro db
  simp only [runF, getLatestStateFromDb]
  split
  next hc => exact absurd hc (by decide)
  next =>
    have hgen : ∀ (c : Prop) (inst : Decidable c) (x y : DB),
        ∃ d, (if c then RunResult.ok x else RunResult.ok y) = RunResult.ok d := by
      intro c inst x y
      by_cases hc : c
      · rw [if_pos hc]
        exact ⟨x, rfl⟩
      · rw [if_neg hc]
        exact ⟨y, rfl⟩
    split
    · exact ⟨db, rfl⟩
    · exact hgen _ _ _ _

/-- C8 counterexample: with F1 last seen on day 1 and F2 last seen on day 2
(the globally latest snapshot timestamp), running the full rebuild on day 5
suppresses BOTH entities — including F2, whose last observed timestamp
equals the global maximum and which the claim says must not be suppressed —
while running it on day 2 suppresses only F1: the trigger depends on the
wall-clock day of the rebuild, not only on the raw store. -/
theorem full_rebuild_today_counterexample :
    ((suprimidosFullPadre exRaw8 5).map fun r => r.folio) = ["F1", "F2"] ∧
    ((suprimidosFullPadre exRaw8 2).map fun r => r.folio) = ["F1"] ∧
    maxFecha exRaw8 = 2000 ∧
    (∃ r ∈ suprimidosFullPadre exRaw8 5, r.folio = "F2" ∧ r.fecha = maxFecha exRaw8) := by
  decide

/-- C8 (amended): in the full-rebuild path an entity receives a synthesised
sentinel record exactly when the calendar day of its last observed snapshot
timestamp differs from the wall-clock day of the rebuild run, and the record
carries the entity's own last-observed timestamp (not the global maximum). -/
theorem full_rebuild_trigger_amended (raw : List Row) (today : Nat) (x : Row) :
    x ∈ suprimidosFullPadre raw today ↔
      ∃ r0, lastOfKey (rkey x) raw = some r0 ∧ dateOf r0.fecha ≠ today ∧
        x = { r0 with estado := supStatus } := by
  unfold suprimidosFullPadre
  rw [List.mem_map]
  constructor
  · rintro ⟨y, hy, rfl⟩
    have h2 := List.mem_filter.mp hy
    rcases List.mem_filterMap.mp h2.1 with ⟨k, hk, hlk⟩
    have hky := lastOfKey_key hlk
    refine ⟨y, ?_, by simpa using h2.2, rfl⟩
    show lastOfKey (rkey y) raw = some y
    rw [hky]
    exact hlk
  · rintro ⟨r0, hlk, hdate, rfl⟩
    refine ⟨r0, ?_, rfl⟩
    rw [List.mem_filter]
    have hmem := pickLast_mem hlk
    have h3 := mem_rowsOfKey.mp hmem
    constructor
    · apply List.mem_filterMap.mpr
      exact ⟨rkey r0, List.mem_dedup.mpr (List.mem_map_of_mem _ h3.1), hlk⟩
    · simpa using hdate

/-- The head of `splitColon` is the longest colon-free leading segment. -/
theorem splitColon_ne_nil : ∀ l : List Char, splitColon l ≠ [] := by
  intro l
  cases l with
  | nil => simp [splitColon]
  | cons c cs =>
    cases h : splitColon cs with
    | nil => simp [splitColon, h]
    | cons g gs =>
      by_cases hc : c = ':'
      · simp [splitColon, h, hc]
      · simp [splitColon, h, hc]

theorem splitColon_head : ∀ l : List Char,
    (splitColon l).head? = some (l.takeWhile fun c => !(decide (c = ':'))) := by
  intro l
  induction l with
  | nil => rfl
  | cons c cs ih =>
    cases h : splitColon cs with
    | nil => exact absurd h (splitColon_ne_nil cs)
    | cons g gs =>
      rw [h] at ih
      simp only [List.head?] at ih
      have hg := Option.some.inj ih
      by_cases hc : c = ':'
      · subst hc
        simp [splitColon, h, List.takeWhile_cons]
      · simp [splitColon, h, hc, List.takeWhile_cons, ← hg]

theorem splitColon_get1 : ∀ l : List Char,
    (splitColon l).get? 1 =
      (afterFirstColon l).map (List.takeWhile fun c => !(decide (c = ':'))) := by
  intro l
  induction l with
  | nil => rfl
  | cons c cs ih =>
    cases h : splitColon cs with
    | nil => exact absurd h (splitColon_ne_nil cs)
    | cons g gs =>
      by_cases hc : c = ':'
      · subst hc
        have hhead := splitColon_head cs
        rw [h] at hhead
        simp only [List.head?] at hhead
        have hg := Option.some.inj hhead
        have hafter : afterFirstColon (':' :: cs) = some cs := by
          simp [afterFirstColon, List.dropWhile_cons]
        simp [splitColon, h, hafter, List.get?, hg]
      · have hafter : afterFirstColon (c :: cs) = afterFirstColon cs := by
          simp [afterFirstColon, List.dropWhile_cons, hc]
        rw [h] at ih
        simp only [List.get?] at ih
        simp [splitColon, h, hc, hafter, List.get?]
        simpa [List.get?_eq_getElem?] using ih

/-- C9 counterexample: on a description with two colons the code keeps only
the text strictly between the first and second colon, while the claim's rule
(everything after the first colon) keeps both remaining segments, so the two
derivations disagree. -/
theorem grd_split_counterexample :
    formatGrd "GRD" (some "X:123:45") = some "000123" ∧
    formatGrdSpec "GRD" (some "X:123:45") = some "123:45" ∧
    formatGrd "GRD" (some "X:123:45") ≠ formatGrdSpec "GRD" (some "X:123:45") := by decide

/-- C9 (amended): the `grd` field is non-null only when the flag equals
"GRD", and in that case it is the text strictly between the first and second
colon of the description (the second field of a split on every colon),
trimmed and zero-padded to width 6 — null when the description is null or
has no colon. -/
theorem grd_format_amended (ppa d : String) :
    formatGrd ppa (some d) =
      (if ppa = "GRD" then
        (afterFirstColon d.toList).map fun rest =>
          String.mk (zfillChars 6 (trimChars (rest.takeWhile fun c => !(decide (c = ':')))))
      else none) ∧
    formatGrd ppa none = none := by
  constructor
  · by_cases hp : ppa = "GRD"
    · rw [if_pos hp]
      unfold formatGrd
      rw [if_pos hp]
      show ((splitColon d.toList).get? 1).map _ = _
      rw [splitColon_get1]
      rw [Option.map_map]
      rfl
    · rw [if_neg hp]
      unfold formatGrd
      rw [if_neg hp]
  · unfold formatGrd
    split <;> rfl

/-- C10 counterexample: when the history table is absent, the suppression
inferencer does not return an empty result — its unguarded read raises. -/
theorem cold_start_absent_counterexample :
    detectSuprimidosT [⟨"c", "F", "A", 1⟩] none = Except.error "relation does not exist" ∧
    detectSuprimidosT [⟨"c", "F", "A", 1⟩] none ≠ Except.ok [] := by
  constructor
  · rfl
  · intro h
    cases h

/-- C10 (amended): on an EXISTING but empty history table the suppression
inferencer returns an empty result for every snapshot slice (no sentinel is
ever synthesised on such a first run); on an ABSENT table, however, its
unguarded `read_sql` raises instead — only `get_latest_state_from_db`
converts the missing table into an empty frame. -/
theorem cold_start_empty_amended :
    (∀ snapshot : List Row, detectSuprimidosT snapshot (some []) = Except.ok []) ∧
    (∀ snapshot : List Row,
      detectSuprimidosT snapshot none = Except.error "relation does not exist") :=
  ⟨fun _ => rfl, fun _ => rfl⟩
